import Mathlib

/-!
Verification of the keyed virtual-DOM reconciler in `src/main.rs`
(`rusty_dom`).

The embedding translates the Rust data model and the `Element::diff`
algorithm into Lean.  Machine integers (`u64`, `usize`) are modelled as
`Nat` (no arithmetic is performed on them, only comparisons, so no
overflow semantics are involved).  A `BTreeMap` is modelled as an
association list holding its entries in the map's iteration order
(ascending key order); `BTreeMap::get` is association-list lookup.

`Element::diff` indexes `children[i]` with indices taken from a keymap;
Rust panics when such an index is out of bounds.  The embedded
`Element.diff` therefore returns `Except Unit _`, with `Except.error ()`
modelling the panic.  The recursion is realised through a structural
fuel parameter (`sizeOf` of the left tree, which strictly bounds the
recursion depth); `diffFuel_irrel` below shows the result does not
depend on the fuel once it is at least `sizeOf` of the left tree, and
`diff_unfold` restates `Element.diff` as the direct recurrence of the
Rust code, so that all reasoning is fuel-free.
-/

/-- The `Key` enum of the source: `Local(u64)` or `Global(u64)`. -/
inductive Key where
  | Local : Nat → Key
  | Global : Nat → Key
deriving DecidableEq, Repr

/-- Strict order on keys, as derived by Rust's `#[derive(PartialOrd, Ord)]`:
variants compare in declaration order (`Local < Global`), payloads
numerically within a variant.  `BTreeMap<Key, _>` iterates in this order. -/
def keyLtB : Key → Key → Bool
  | Key.Local a, Key.Local b => a < b
  | Key.Local _, Key.Global _ => true
  | Key.Global _, Key.Local _ => false
  | Key.Global a, Key.Global b => a < b

/-- The `Element` enum of the source.  `attributes` is a
`BTreeMap<String, String>` in Rust, modelled as an association list (it
is never read by `diff`); `keymap` is a `BTreeMap<Key, usize>` modelled
as its sorted entry list; `children` is a `Vec<Element>`. -/
inductive Element where
  | Text (key : Key) (value : String)
  | Void (key : Key) (name : String) (attributes : Option (List (String × String)))
  | Parent (key : Key) (name : String) (keymap : List (Key × Nat))
      (attributes : Option (List (String × String))) (children : List Element)

/-- `Element::to_key`. -/
def Element.toKey : Element → Key
  | Element.Text k _ => k
  | Element.Void k _ _ => k
  | Element.Parent k _ _ _ _ => k

mutual

/-- Structural size of an element, used as the fuel bound for the
recursion of `Element.diff` (one unit per tree node). -/
def sizeE : Element → Nat
  | Element.Text _ _ => 1
  | Element.Void _ _ _ => 1
  | Element.Parent _ _ _ _ ch => 1 + sizeL ch
termination_by e => sizeOf e

/-- Summed structural size of a list of elements. -/
def sizeL : List Element → Nat
  | [] => 0
  | c :: rest => sizeE c + sizeL rest
termination_by l => sizeOf l

end

/-- The `Change` enum of the source. -/
inductive Change where
  | RemoveChild (k : Key)
  | InsertChild (e : Element)
  | SortChildren (ks : List Key)
  | UpdateText (s : String)
  | ReplaceNode (e : Element)

/-- The `DiffTree` struct of the source: optional local change list and
optional list of `(Key, DiffTree)` nested entries. -/
inductive DiffTree where
  | mk (changes : Option (List Change)) (children : Option (List (Key × DiffTree)))

/-- Projection of the `changes` field of a `DiffTree`. -/
def DiffTree.changes : DiffTree → Option (List Change)
  | DiffTree.mk c _ => c

/-- Projection of the `children` field of a `DiffTree`. -/
def DiffTree.children : DiffTree → Option (List (Key × DiffTree))
  | DiffTree.mk _ c => c

/-- `BTreeMap::get` on the keymap model: first (and, in a well-formed
map, only) entry with the given key. -/
def kmLookup : List (Key × Nat) → Key → Option Nat
  | [], _ => none
  | (k, v) :: rest, key => if key = k then some v else kmLookup rest key

/-- The first loop of the Parent/Parent case of `Element::diff`
(`for (&key, &value) in left_keymap.iter()`), parameterised by the
recursive call `d`.  Accumulates `changes` (`cs`), `child_changes`
(`ccs`) and the `order` flag; `Except.error ()` models the panic of an
out-of-bounds `children[i]` access. -/
def diffLeftLoop (d : Element → Element → Except Unit (Option DiffTree))
    (lch rch : List Element) (rkm : List (Key × Nat)) :
    List (Key × Nat) → List Change → List (Key × DiffTree) → Bool →
    Except Unit (List Change × List (Key × DiffTree) × Bool)
  | [], cs, ccs, ord => Except.ok (cs, ccs, ord)
  | (key, v) :: rest, cs, ccs, ord =>
    match kmLookup rkm key with
    | some v2 =>
      match lch.get? v, rch.get? v2 with
      | some lc, some rc =>
        match d lc rc with
        | Except.error e => Except.error e
        | Except.ok (some ct) =>
          diffLeftLoop d lch rch rkm rest cs (ccs ++ [(key, ct)])
            (if v ≠ v2 then true else ord)
        | Except.ok none =>
          diffLeftLoop d lch rch rkm rest cs ccs (if v ≠ v2 then true else ord)
      | _, _ => Except.error ()
    | none => diffLeftLoop d lch rch rkm rest (cs ++ [Change.RemoveChild key]) ccs ord

/-- The second loop of the Parent/Parent case of `Element::diff`
(`for (key, &value) in right_keymap.iter()`): marks order changes for
shared keys and emits `InsertChild(right_children[value])` for new keys. -/
def diffRightLoop (lkm : List (Key × Nat)) (rch : List Element) :
    List (Key × Nat) → List Change → Bool → Except Unit (List Change × Bool)
  | [], cs, ord => Except.ok (cs, ord)
  | (key, v) :: rest, cs, ord =>
    match kmLookup lkm key with
    | some v2 => diffRightLoop lkm rch rest cs (if v ≠ v2 then true else ord)
    | none =>
      match rch.get? v with
      | some rc => diffRightLoop lkm rch rest (cs ++ [Change.InsertChild rc]) ord
      | none => Except.error ()

/-- `Element::diff`, with a structural fuel argument realising the
recursion (one unit of fuel per recursion level; `sizeOf` of the left
tree always suffices, see `diffFuel_irrel`). -/
def diffFuel : Nat → Element → Element → Except Unit (Option DiffTree)
  | 0, _, _ => Except.error ()
  | f + 1, p, n =>
    match p, n with
    | Element.Text _ l, Element.Text _ r =>
      if l ≠ r then
        Except.ok (some (DiffTree.mk (some [Change.UpdateText r]) none))
      else
        Except.ok none
    | Element.Void _ l _, Element.Void _ r _ =>
      if l = r then
        Except.ok none
      else
        Except.ok (some (DiffTree.mk (some [Change.ReplaceNode n]) none))
    | Element.Parent _ ln lkm _ lch, Element.Parent _ rn rkm _ rch =>
      if ln = rn then
        match diffLeftLoop (diffFuel f) lch rch rkm lkm [] [] false with
        | Except.error e => Except.error e
        | Except.ok (cs, ccs, ord) =>
          match diffRightLoop lkm rch rkm cs ord with
          | Except.error e => Except.error e
          | Except.ok (cs2, ord2) =>
            let cs3 := if ord2 then
                cs2 ++ [Change.SortChildren (rch.map Element.toKey)]
              else cs2
            if ccs.length = 0 then
              Except.ok (some (DiffTree.mk (some cs3) none))
            else
              Except.ok (some (DiffTree.mk (some cs3) (some ccs)))
      else Except.ok (some (DiffTree.mk (some [Change.ReplaceNode n]) none))
    | _, _ => Except.ok (some (DiffTree.mk (some [Change.ReplaceNode n]) none))

/-- `Element::diff`.  `Except.error ()` models a Rust panic
(out-of-bounds child index reached through a malformed keymap). -/
def Element.diff (p n : Element) : Except Unit (Option DiffTree) :=
  diffFuel (sizeE p) p n

/-- Constructor discriminator, to state which `Element` pairs fall into
the catch-all ("mismatched pair") arm of `Element::diff`. -/
def Element.ctorIdx : Element → Nat
  | Element.Text _ _ => 0
  | Element.Void _ _ _ => 1
  | Element.Parent _ _ _ _ _ => 2

/-- Is this change a remove-child change? -/
def isRemoveChild : Change → Bool
  | Change.RemoveChild _ => true
  | _ => false

/-- Is this change an insert-child change? -/
def isInsertChild : Change → Bool
  | Change.InsertChild _ => true
  | _ => false

/-- Is this change a sort-children change? -/
def isSortChildren : Change → Bool
  | Change.SortChildren _ => true
  | _ => false

/-- Keys of entries of `km` that are absent from `other`, in `km`'s
iteration order. -/
def removedKeys (other km : List (Key × Nat)) : List Key :=
  (km.filter (fun kv => (kmLookup other kv.1).isNone)).map (fun kv => kv.1)

/-- The remove-child changes the left loop emits, in emission order. -/
def removedChanges (other km : List (Key × Nat)) : List Change :=
  (removedKeys other km).map (fun k => Change.RemoveChild k)

/-- Some entry of `km` names a key that `other` maps to a different
index (the condition under which a loop of `Element::diff` sets the
`order` flag). -/
def sharedMovedB (km other : List (Key × Nat)) : Bool :=
  km.any (fun kv =>
    match kmLookup other kv.1 with
    | some v2 => decide (kv.2 ≠ v2)
    | none => false)

/-- The keymap-consistency precondition stated by the spec for a single
Parent: every keymap entry points at a child carrying that key at that
index (hence no entries for keys not present as children), and every
child's key looks up to the child's index. -/
def keymapExactB (km : List (Key × Nat)) (ch : List Element) : Bool :=
  km.all (fun kv =>
    match ch.get? kv.2 with
    | some c => decide (c.toKey = kv.1)
    | none => false)
  && (List.range ch.length).all (fun i =>
    match ch.get? i with
    | some c => decide (kmLookup km c.toKey = some i)
    | none => true)

/-- Recursive well-formedness (keymap consistency at every Parent of the
tree), with a structural fuel argument; `sizeE` always suffices. -/
def wfFuel : Nat → Element → Bool
  | 0, _ => false
  | f + 1, e =>
    match e with
    | Element.Text _ _ => true
    | Element.Void _ _ _ => true
    | Element.Parent _ _ km _ ch => keymapExactB km ch && ch.all (wfFuel f)

/-- A tree is well-formed when every Parent node in it has a keymap
mapping each direct child's key to that child's index and nothing else. -/
def Element.wf (e : Element) : Bool := wfFuel (sizeE e) e

/-- The `BTreeMap` representation invariant for the keymap model:
entries are strictly ascending in key order (this is the order in which
`BTreeMap::iter` yields them). -/
def kmSorted (km : List (Key × Nat)) : Prop :=
  km.Pairwise (fun x y => keyLtB x.1 y.1 = true)

/-- Some key is present in both keymaps, at different indices (the
spec's "a shared key changed index" condition). -/
def sharedMovedProp (lkm rkm : List (Key × Nat)) : Prop :=
  ∃ k v v2, kmLookup lkm k = some v ∧ kmLookup rkm k = some v2 ∧ v ≠ v2

/-- The previous tree of the repository's own `test_nested_remove` test:
`div(key 0)[ div(key 0)[ div-void(key 0) ] ]`. -/
def prevNested : Element :=
  Element.Parent (Key.Local 0) "div" [(Key.Local 0, 0)] none
    [Element.Parent (Key.Local 0) "div" [(Key.Local 0, 0)] none
      [Element.Void (Key.Local 0) "div" none]]

/-- The next tree of the repository's own `test_nested_remove` test:
`div(key 0)[ div-void(key 0) ]`. -/
def nextNested : Element :=
  Element.Parent (Key.Local 0) "div" [(Key.Local 0, 0)] none
    [Element.Void (Key.Local 0) "div" none]

/-- The Parent `P` of C4: `div(key 0)[ p(key 1)[] ]`. -/
def pBase : Element :=
  Element.Parent (Key.Local 0) "div" [(Key.Local 1, 0)] none
    [Element.Parent (Key.Local 1) "p" [] none []]

/-- `P'`: a copy of `P` with one new child (a Void with fresh key 2)
appended at the end. -/
def pAppended : Element :=
  Element.Parent (Key.Local 0) "div" [(Key.Local 1, 0), (Key.Local 2, 1)] none
    [Element.Parent (Key.Local 1) "p" [] none [],
     Element.Void (Key.Local 2) "img" none]

/-- A well-formed nested tree used to witness C6. -/
def wfTreeA : Element :=
  Element.Parent (Key.Local 0) "div" [(Key.Local 1, 0), (Key.Local 2, 1)] none
    [Element.Void (Key.Local 1) "img" none,
     Element.Parent (Key.Local 2) "div" [(Key.Local 0, 0)] none
       [Element.Text (Key.Local 0) "t"]]

/-- Another well-formed tree used to witness C6. -/
def wfTreeB : Element :=
  Element.Parent (Key.Local 0) "div" [(Key.Local 2, 0), (Key.Local 3, 1)] none
    [Element.Parent (Key.Local 2) "div" [(Key.Local 0, 0)] none
       [Element.Text (Key.Local 0) "u"],
     Element.Void (Key.Local 3) "br" none]

/-- The local change list of a diff result (empty for an absent result,
an error, or an absent change list). -/
def changesOf : Except Unit (Option DiffTree) → List Change
  | Except.ok (some (DiffTree.mk (some cs) _)) => cs
  | _ => []

/-- The keys carried by the remove-child changes of a change list, in
order. -/
def removeKeysOf (cs : List Change) : List Key :=
  cs.filterMap (fun c =>
    match c with
    | Change.RemoveChild k => some k
    | _ => none)

/-- Rendering of the order asserted by the spec for batch removals: the
removed keys in the order they originally appeared among the previous
children (not in keymap iteration order). -/
def specRemovalOrder (p n : Element) : List Key :=
  match p, n with
  | Element.Parent _ _ _ _ lch, Element.Parent _ _ rkm _ _ =>
    (lch.map Element.toKey).filter (fun k => (kmLookup rkm k).isNone)
  | _, _ => []

/-- The previous tree for the C3 counterexample: children appear in
descending key order, so keymap iteration order and child-sequence order
disagree. -/
def prevOrd : Element :=
  Element.Parent (Key.Local 0) "div"
    [(Key.Local 1, 2), (Key.Local 2, 1), (Key.Local 3, 0)] none
    [Element.Void (Key.Local 3) "div" none,
     Element.Void (Key.Local 2) "div" none,
     Element.Void (Key.Local 1) "div" none]

/-- The next tree for the C3 counterexample: only the child with key 1
remains, so keys 2 and 3 are removed. -/
def nextOrd : Element :=
  Element.Parent (Key.Local 0) "div" [(Key.Local 1, 0)] none
    [Element.Void (Key.Local 1) "div" none]

/-- The Parent with children keyed `[1, 2]` for the C5 concrete case. -/
def swapPrev : Element :=
  Element.Parent (Key.Local 0) "div" [(Key.Local 1, 0), (Key.Local 2, 1)] none
    [Element.Void (Key.Local 1) "div" none,
     Element.Void (Key.Local 2) "div" none]

/-- The same Parent with the two children swapped (`[2, 1]`). -/
def swapNext : Element :=
  Element.Parent (Key.Local 0) "div" [(Key.Local 1, 1), (Key.Local 2, 0)] none
    [Element.Void (Key.Local 2) "div" none,
     Element.Void (Key.Local 1) "div" none]

/-- Modelled from the spec: the error taxonomy of the Mutator operations
(spec §7).  The Mutator itself is absent from the repository source
(`src/main.rs` contains only the Reconciler); these operations are
modelled faithfully from the spec's §4.1 wording. -/
inductive MutError where
  | ChildlessElementOpError
  | IndexOOBError
  | NotATextNode
deriving DecidableEq, Repr

/-- Modelled from the spec: the replay records returned by the Mutator
operations (spec §4.1). -/
inductive MutChange where
  | AppendChild (e : Element)
  | InsertBefore (k : Key) (e : Element)
  | InsertAllBefore (k : Key) (es : List Element)
  | AppendAll (es : List Element)
  | ReplaceChild (k : Key) (e : Element)
  | RemoveChild (k : Key)
  | SortChildren (ks : List Key)
  | UpdateText (s : String)

/-- `BTreeMap::insert` on the keymap model: sorted insertion, replacing
the value of an existing key. -/
def kmInsert (k : Key) (v : Nat) : List (Key × Nat) → List (Key × Nat)
  | [] => [(k, v)]
  | (k2, v2) :: rest =>
    if keyLtB k k2 then (k, v) :: (k2, v2) :: rest
    else if k = k2 then (k, v) :: rest
    else (k2, v2) :: kmInsert k v rest

/-- Modelled from the spec: rebuilding the keymap of a children sequence
(every Mutator operation "keeps the keymap in sync": each direct child's
key maps to its current index). -/
def rebuildKeymap (ch : List Element) : List (Key × Nat) :=
  ch.enum.foldl (fun m iv => kmInsert iv.2.toKey iv.1 m) []

/-- Modelled from the spec: `append_child(el)` pushes `el` to the end of
a Parent's children (always succeeds on a Parent) and keeps the keymap
in sync; fails with `ChildlessElementOpError` on Text/Void. -/
def Element.append_child (p el : Element) : Except MutError (MutChange × Element) :=
  match p with
  | Element.Parent k nm _ a ch =>
    Except.ok (MutChange.AppendChild el,
      Element.Parent k nm (rebuildKeymap (ch ++ [el])) a (ch ++ [el]))
  | _ => Except.error MutError.ChildlessElementOpError

/-- Modelled from the spec: `insert_before(index, el)` inserts `el`
immediately before the child currently at `index`; fails with
`IndexOOBError` when `index >= children.len()`; the Change references
the key of the element previously at `index`. -/
def Element.insert_before (p : Element) (i : Nat) (el : Element) :
    Except MutError (MutChange × Element) :=
  match p with
  | Element.Parent k nm _ a ch =>
    match ch.get? i with
    | some prev =>
      Except.ok (MutChange.InsertBefore prev.toKey el,
        Element.Parent k nm (rebuildKeymap (ch.take i ++ [el] ++ ch.drop i)) a
          (ch.take i ++ [el] ++ ch.drop i))
    | none => Except.error MutError.IndexOOBError
  | _ => Except.error MutError.ChildlessElementOpError

/-- Modelled from the spec: `insert_all(index, els)` inserts an ordered
batch before `index`, preserving the relative order of `els`; same
bounds check and replay semantics as `insert_before`. -/
def Element.insert_all (p : Element) (i : Nat) (els : List Element) :
    Except MutError (MutChange × Element) :=
  match p with
  | Element.Parent k nm _ a ch =>
    match ch.get? i with
    | some prev =>
      Except.ok (MutChange.InsertAllBefore prev.toKey els,
        Element.Parent k nm (rebuildKeymap (ch.take i ++ els ++ ch.drop i)) a
          (ch.take i ++ els ++ ch.drop i))
    | none => Except.error MutError.IndexOOBError
  | _ => Except.error MutError.ChildlessElementOpError

/-- Modelled from the spec: `append_all(els)` appends an ordered batch
to the end; always succeeds on a Parent. -/
def Element.append_all (p : Element) (els : List Element) :
    Except MutError (MutChange × Element) :=
  match p with
  | Element.Parent k nm _ a ch =>
    Except.ok (MutChange.AppendAll els,
      Element.Parent k nm (rebuildKeymap (ch ++ els)) a (ch ++ els))
  | _ => Except.error MutError.ChildlessElementOpError

/-- Modelled from the spec: `replace_child(index, el)` removes the child
at `index` and substitutes `el`; fails with `IndexOOBError` when out of
bounds; the Change carries the removed child's key and the new Element. -/
def Element.replace_child (p : Element) (i : Nat) (el : Element) :
    Except MutError (MutChange × Element) :=
  match p with
  | Element.Parent k nm _ a ch =>
    match ch.get? i with
    | some old =>
      Except.ok (MutChange.ReplaceChild old.toKey el,
        Element.Parent k nm (rebuildKeymap (ch.set i el)) a (ch.set i el))
    | none => Except.error MutError.IndexOOBError
  | _ => Except.error MutError.ChildlessElementOpError

/-- Modelled from the spec: `remove_child(index)` removes the child at
`index`; fails with `IndexOOBError` when out of bounds; the Change
carries the removed child's key. -/
def Element.remove_child (p : Element) (i : Nat) :
    Except MutError (MutChange × Element) :=
  match p with
  | Element.Parent k nm _ a ch =>
    match ch.get? i with
    | some old =>
      Except.ok (MutChange.RemoveChild old.toKey,
        Element.Parent k nm (rebuildKeymap (ch.eraseIdx i)) a (ch.eraseIdx i))
    | none => Except.error MutError.IndexOOBError
  | _ => Except.error MutError.ChildlessElementOpError

/-- Modelled from the spec: `reorder_children(comparator)` re-sorts the
child sequence by a caller-supplied ordering key function (stable sort)
and rebuilds the keymap; the Change carries the full ordered list of
resulting child keys; fails with `ChildlessElementOpError` off a Parent. -/
def Element.reorder_children (p : Element) (f : Element → Nat) :
    Except MutError (MutChange × Element) :=
  match p with
  | Element.Parent k nm _ a ch =>
    Except.ok (MutChange.SortChildren
        ((ch.mergeSort (fun x y => decide (f x ≤ f y))).map Element.toKey),
      Element.Parent k nm
        (rebuildKeymap (ch.mergeSort (fun x y => decide (f x ≤ f y)))) a
        (ch.mergeSort (fun x y => decide (f x ≤ f y))))
  | _ => Except.error MutError.ChildlessElementOpError

/-- Modelled from the spec: `update_text(new)` replaces the text value
of a Text node; fails with `NotATextNode` on Void/Parent. -/
def Element.update_text (p : Element) (s : String) :
    Except MutError (MutChange × Element) :=
  match p with
  | Element.Text k _ => Except.ok (MutChange.UpdateText s, Element.Text k s)
  | _ => Except.error MutError.NotATextNode

/-- The claimed invariant, per node: for a Parent, every child's key
looks up to the child's index and the keymap holds no other entries;
trivial for leaves. -/
def keymapConsistent : Element → Prop
  | Element.Parent _ _ km _ ch => keymapExactB km ch = true
  | _ => True

/-- The caller-side key-uniqueness invariant of the spec (§3): keys are
unique among the direct children of a Parent; trivial for leaves. -/
def childKeysNodup : Element → Prop
  | Element.Parent _ _ _ _ ch => (ch.map Element.toKey).Nodup
  | _ => True

/-- Last-entry-wins lookup over an index/element pair list, specifying
the result of folding `kmInsert` over the list. -/
def lookupRev : List (Nat × Element) → Key → Option Nat
  | [], _ => none
  | (i, c) :: rest, k =>
    match lookupRev rest k with
    | some v => some v
    | none => if k = c.toKey then some i else none

theorem sizeE_pos (e : Element) : 0 < sizeE e := by
  cases e <;> simp [sizeE]

theorem sizeE_le_sizeL {c : Element} {ch : List Element} (h : c ∈ ch) :
    sizeE c ≤ sizeL ch := by
  induction ch with
  | nil => cases h
  | cons a rest ih =>
    rcases List.mem_cons.mp h with h1 | h2
    · subst h1; simp [sizeL]
    · have := ih h2
      simp [sizeL]
      omega

theorem sizeE_child_lt {c : Element} {k : Key} {nm : String}
    {km : List (Key × Nat)} {a : Option (List (String × String))}
    {ch : List Element} (h : c ∈ ch) :
    sizeE c < sizeE (Element.Parent k nm km a ch) := by
  have := sizeE_le_sizeL h
  simp [sizeE]
  omega

theorem diffLeftLoop_congr {d1 d2 : Element → Element → Except Unit (Option DiffTree)}
    {lch rch : List Element} {rkm : List (Key × Nat)}
    (h : ∀ lc ∈ lch, ∀ rc, d1 lc rc = d2 lc rc) :
    ∀ km cs ccs ord,
      diffLeftLoop d1 lch rch rkm km cs ccs ord =
        diffLeftLoop d2 lch rch rkm km cs ccs ord := by
  intro km
  induction km with
  | nil => intro cs ccs ord; rfl
  | cons kv rest ih =>
    intro cs ccs ord
    obtain ⟨key, v⟩ := kv
    cases hlk : kmLookup rkm key with
    | none =>
      simp only [diffLeftLoop, hlk]
      exact ih _ _ _
    | some v2 =>
      cases hl : lch.get? v with
      | none => simp only [diffLeftLoop, hlk, hl]
      | some lc =>
        cases hr : rch.get? v2 with
        | none => simp only [diffLeftLoop, hlk, hl, hr]
        | some rc =>
          have hmem : lc ∈ lch := List.get?_mem hl
          simp only [diffLeftLoop, hlk, hl, hr, h lc hmem rc]
          cases d2 lc rc with
          | error e => rfl
          | ok r => cases r with
            | none => exact ih _ _ _
            | some ct => exact ih _ _ _

theorem diffFuel_irrel : ∀ f p n, sizeE p ≤ f → diffFuel f p n = diffFuel (sizeE p) p n := by
  intro f
  induction f using Nat.strong_induction_on with
  | _ f IH =>
    intro p n hle
    have hpos := sizeE_pos p
    obtain ⟨f', rfl⟩ : ∃ f', f = f' + 1 := ⟨f - 1, by omega⟩
    obtain ⟨s', hs⟩ : ∃ s', sizeE p = s' + 1 := ⟨sizeE p - 1, by omega⟩
    rw [hs]
    cases p with
    | Text k v => cases n <;> rfl
    | Void k nm a => cases n <;> rfl
    | Parent k nm km a ch =>
      cases n with
      | Text _ _ => rfl
      | Void _ _ _ => rfl
      | Parent k2 nm2 km2 a2 ch2 =>
        simp only [diffFuel]
        have hcong :
            diffLeftLoop (diffFuel f') ch ch2 km2 km [] [] false =
              diffLeftLoop (diffFuel s') ch ch2 km2 km [] [] false := by
          apply diffLeftLoop_congr
          intro lc hmem rc
          have hlt : sizeE lc < sizeE (Element.Parent k nm km a ch) :=
            sizeE_child_lt hmem
          rw [IH f' (by omega) lc rc (by omega), IH s' (by omega) lc rc (by omega)]
        rw [hcong]

/-- Evaluate `Element.diff` with any sufficiently large fuel (used to
compute the function on concrete inputs by kernel reduction). -/
theorem diff_eval (f : Nat) {p n : Element} (h : sizeE p ≤ f) :
    Element.diff p n = diffFuel f p n :=
  (diffFuel_irrel f p n h).symm

theorem diff_text_text (k1 k2 : Key) (l r : String) :
    Element.diff (Element.Text k1 l) (Element.Text k2 r) =
      if l ≠ r then Except.ok (some (DiffTree.mk (some [Change.UpdateText r]) none))
      else Except.ok none := by
  rw [diff_eval 1 (by simp only [sizeE]; omega)]
  rfl

theorem diff_void_void (k1 k2 : Key) (l r : String)
    (a1 a2 : Option (List (String × String))) :
    Element.diff (Element.Void k1 l a1) (Element.Void k2 r a2) =
      if l = r then Except.ok none
      else Except.ok (some (DiffTree.mk
        (some [Change.ReplaceNode (Element.Void k2 r a2)]) none)) := by
  rw [diff_eval 1 (by simp only [sizeE]; omega)]
  rfl

theorem diff_mismatch {p n : Element} (h : p.ctorIdx ≠ n.ctorIdx) :
    Element.diff p n =
      Except.ok (some (DiffTree.mk (some [Change.ReplaceNode n]) none)) := by
  have hpos := sizeE_pos p
  obtain ⟨s', hs⟩ : ∃ s', sizeE p = s' + 1 := ⟨sizeE p - 1, by omega⟩
  show diffFuel (sizeE p) p n = _
  rw [hs]
  cases p <;> cases n <;> first
    | rfl
    | exact absurd rfl h

theorem diff_parent_parent (k1 k2 : Key) (nm nm2 : String)
    (km km2 : List (Key × Nat)) (a a2 : Option (List (String × String)))
    (ch ch2 : List Element) :
    Element.diff (Element.Parent k1 nm km a ch) (Element.Parent k2 nm2 km2 a2 ch2) =
      if nm = nm2 then
        match diffLeftLoop Element.diff ch ch2 km2 km [] [] false with
        | Except.error e => Except.error e
        | Except.ok (cs, ccs, ord) =>
          match diffRightLoop km ch2 km2 cs ord with
          | Except.error e => Except.error e
          | Except.ok (cs2, ord2) =>
            let cs3 := if ord2 then
                cs2 ++ [Change.SortChildren (ch2.map Element.toKey)]
              else cs2
            if ccs.length = 0 then
              Except.ok (some (DiffTree.mk (some cs3) none))
            else
              Except.ok (some (DiffTree.mk (some cs3) (some ccs)))
      else
        Except.ok (some (DiffTree.mk
          (some [Change.ReplaceNode (Element.Parent k2 nm2 km2 a2 ch2)]) none)) := by
  have hpos := sizeE_pos (Element.Parent k1 nm km a ch)
  obtain ⟨s', hs⟩ : ∃ s', sizeE (Element.Parent k1 nm km a ch) = s' + 1 :=
    ⟨sizeE (Element.Parent k1 nm km a ch) - 1, by omega⟩
  show diffFuel (sizeE (Element.Parent k1 nm km a ch)) _ _ = _
  rw [hs]
  simp only [diffFuel]
  have hcong :
      diffLeftLoop (diffFuel s') ch ch2 km2 km [] [] false =
        diffLeftLoop Element.diff ch ch2 km2 km [] [] false := by
    apply diffLeftLoop_congr
    intro lc hmem rc
    have hlt : sizeE lc < sizeE (Element.Parent k1 nm km a ch) :=
      sizeE_child_lt hmem
    rw [diffFuel_irrel s' lc rc (by omega)]
    rfl
  rw [hcong]

theorem kmLookup_mem {km : List (Key × Nat)} {k : Key} {v : Nat}
    (h : kmLookup km k = some v) : (k, v) ∈ km := by
  induction km with
  | nil => simp [kmLookup] at h
  | cons kv rest ih =>
    obtain ⟨k2, v2⟩ := kv
    by_cases hk : k = k2
    · subst hk
      simp [kmLookup] at h
      subst h
      exact List.mem_cons_self _ _
    · simp [kmLookup, hk] at h
      exact List.mem_cons_of_mem _ (ih h)

theorem diffLeftLoop_ok_spec {d : Element → Element → Except Unit (Option DiffTree)}
    {lch rch : List Element} {rkm : List (Key × Nat)} :
    ∀ km cs ccs ord cs' ccs' ord',
      diffLeftLoop d lch rch rkm km cs ccs ord = Except.ok (cs', ccs', ord') →
      cs' = cs ++ removedChanges rkm km ∧ ord' = (ord || sharedMovedB km rkm) := by
  intro km
  induction km with
  | nil =>
    intro cs ccs ord cs' ccs' ord' h
    simp only [diffLeftLoop, Except.ok.injEq, Prod.mk.injEq] at h
    obtain ⟨h1, h2, h3⟩ := h
    subst h1; subst h3
    simp [removedChanges, removedKeys, sharedMovedB]
  | cons kv rest ih =>
    intro cs ccs ord cs' ccs' ord' h
    obtain ⟨key, v⟩ := kv
    cases hlk : kmLookup rkm key with
    | none =>
      simp only [diffLeftLoop, hlk] at h
      obtain ⟨h1, h2⟩ := ih _ _ _ _ _ _ h
      constructor
      · rw [h1]
        simp [removedChanges, removedKeys, hlk]
      · rw [h2]
        simp [sharedMovedB, hlk]
    | some v2 =>
      cases hl : lch.get? v with
      | none =>
        simp only [diffLeftLoop, hlk, hl] at h
        exact Except.noConfusion h
      | some lc =>
        cases hr : rch.get? v2 with
        | none =>
          simp only [diffLeftLoop, hlk, hl, hr] at h
          exact Except.noConfusion h
        | some rc =>
          have hstep : ∀ ccs2,
              diffLeftLoop d lch rch rkm rest cs ccs2 (if v ≠ v2 then true else ord) =
                Except.ok (cs', ccs', ord') →
              cs' = cs ++ removedChanges rkm ((key, v) :: rest) ∧
                ord' = (ord || sharedMovedB ((key, v) :: rest) rkm) := by
            intro ccs2 h2
            obtain ⟨g1, g2⟩ := ih _ _ _ _ _ _ h2
            constructor
            · rw [g1]
              simp [removedChanges, removedKeys, hlk]
            · rw [g2]
              simp only [sharedMovedB, List.any_cons, hlk]
              by_cases hv : v = v2
              · subst hv
                simp
              · simp [hv]
          simp only [diffLeftLoop, hlk, hl, hr] at h
          cases hd : d lc rc with
          | error e => rw [hd] at h; exact absurd h (by simp)
          | ok r =>
            rw [hd] at h
            cases r with
            | none => exact hstep _ h
            | some ct => exact hstep _ h

theorem diffRightLoop_ok_spec {lkm : List (Key × Nat)} {rch : List Element} :
    ∀ km cs ord cs' ord',
      diffRightLoop lkm rch km cs ord = Except.ok (cs', ord') →
      (∃ extra, cs' = cs ++ extra ∧ ∀ c ∈ extra, isInsertChild c = true) ∧
        ord' = (ord || sharedMovedB km lkm) := by
  intro km
  induction km with
  | nil =>
    intro cs ord cs' ord' h
    simp only [diffRightLoop, Except.ok.injEq, Prod.mk.injEq] at h
    obtain ⟨h1, h2⟩ := h
    subst h1; subst h2
    refine ⟨⟨[], by simp⟩, by simp [sharedMovedB]⟩
  | cons kv rest ih =>
    intro cs ord cs' ord' h
    obtain ⟨key, v⟩ := kv
    cases hlk : kmLookup lkm key with
    | some v2 =>
      simp only [diffRightLoop, hlk] at h
      obtain ⟨h1, h2⟩ := ih _ _ _ _ h
      refine ⟨h1, ?_⟩
      rw [h2]
      simp only [sharedMovedB, List.any_cons, hlk]
      by_cases hv : v = v2
      · subst hv
        simp
      · simp [hv]
    | none =>
      cases hg : rch.get? v with
      | none =>
        simp only [diffRightLoop, hlk, hg] at h
        exact Except.noConfusion h
      | some rc =>
        simp only [diffRightLoop, hlk, hg] at h
        obtain ⟨⟨extra, he1, he2⟩, h2⟩ := ih _ _ _ _ h
        constructor
        · refine ⟨Change.InsertChild rc :: extra, ?_, ?_⟩
          · rw [he1]
            simp
          · intro c hc
            rcases List.mem_cons.mp hc with h1 | h1
            · subst h1; rfl
            · exact he2 c h1
        · rw [h2]
          simp [sharedMovedB, hlk]

theorem diffLeftLoop_total {d : Element → Element → Except Unit (Option DiffTree)}
    {lch rch : List Element} {rkm : List (Key × Nat)}
    (hd : ∀ lc ∈ lch, ∀ rc ∈ rch, ∃ r, d lc rc = Except.ok r) :
    ∀ km cs ccs ord,
      (∀ kv ∈ km, ∀ v2, kmLookup rkm kv.1 = some v2 →
        kv.2 < lch.length ∧ v2 < rch.length) →
      ∃ out, diffLeftLoop d lch rch rkm km cs ccs ord = Except.ok out := by
  intro km
  induction km with
  | nil => intro cs ccs ord _; exact ⟨_, rfl⟩
  | cons kv rest ih =>
    intro cs ccs ord hb
    obtain ⟨key, v⟩ := kv
    cases hlk : kmLookup rkm key with
    | none =>
      obtain ⟨out, hout⟩ := ih (cs ++ [Change.RemoveChild key]) ccs ord
        (fun kv h2 => hb kv (List.mem_cons_of_mem _ h2))
      exact ⟨out, by simp only [diffLeftLoop, hlk]; exact hout⟩
    | some v2 =>
      obtain ⟨hvlt, hv2lt⟩ := hb (key, v) (List.mem_cons_self _ _) v2 hlk
      have hl : lch.get? v = some (lch.get ⟨v, hvlt⟩) := List.get?_eq_get hvlt
      have hr : rch.get? v2 = some (rch.get ⟨v2, hv2lt⟩) := List.get?_eq_get hv2lt
      obtain ⟨r, hrr⟩ := hd _ (List.get_mem lch _ _) _ (List.get_mem rch _ _)
      have hbr : ∀ kv ∈ rest, ∀ w, kmLookup rkm kv.1 = some w →
          kv.2 < lch.length ∧ w < rch.length :=
        fun kv h2 => hb kv (List.mem_cons_of_mem _ h2)
      cases r with
      | none =>
        obtain ⟨out, hout⟩ := ih cs ccs (if v ≠ v2 then true else ord) hbr
        refine ⟨out, ?_⟩
        simp only [diffLeftLoop, hlk, hl, hr]
        rw [hrr]
        exact hout
      | some ct =>
        obtain ⟨out, hout⟩ := ih cs (ccs ++ [(key, ct)]) (if v ≠ v2 then true else ord) hbr
        refine ⟨out, ?_⟩
        simp only [diffLeftLoop, hlk, hl, hr]
        rw [hrr]
        exact hout

theorem diffRightLoop_total {lkm : List (Key × Nat)} {rch : List Element} :
    ∀ km cs ord,
      (∀ kv ∈ km, kmLookup lkm kv.1 = none → kv.2 < rch.length) →
      ∃ out, diffRightLoop lkm rch km cs ord = Except.ok out := by
  intro km
  induction km with
  | nil => intro cs ord _; exact ⟨_, rfl⟩
  | cons kv rest ih =>
    intro cs ord hb
    obtain ⟨key, v⟩ := kv
    cases hlk : kmLookup lkm key with
    | some v2 =>
      obtain ⟨out, hout⟩ := ih cs (if v ≠ v2 then true else ord)
        (fun kv h2 => hb kv (List.mem_cons_of_mem _ h2))
      exact ⟨out, by simp only [diffRightLoop, hlk]; exact hout⟩
    | none =>
      have hvlt : v < rch.length := hb (key, v) (List.mem_cons_self _ _) hlk
      have hg : rch.get? v = some (rch.get ⟨v, hvlt⟩) := List.get?_eq_get hvlt
      obtain ⟨out, hout⟩ := ih (cs ++ [Change.InsertChild (rch.get ⟨v, hvlt⟩)]) ord
        (fun kv h2 => hb kv (List.mem_cons_of_mem _ h2))
      refine ⟨out, ?_⟩
      simp only [diffRightLoop, hlk, hg]
      exact hout

theorem list_all_congr {α : Type} {p q : α → Bool} :
    ∀ {l : List α}, (∀ a ∈ l, p a = q a) → l.all p = l.all q := by
  intro l
  induction l with
  | nil => intro _; rfl
  | cons a rest ih =>
    intro h
    simp only [List.all_cons]
    rw [h a (List.mem_cons_self _ _), ih (fun b hb => h b (List.mem_cons_of_mem _ hb))]

theorem wfFuel_irrel : ∀ f e, sizeE e ≤ f → wfFuel f e = wfFuel (sizeE e) e := by
  intro f
  induction f using Nat.strong_induction_on with
  | _ f IH =>
    intro e hle
    have hpos := sizeE_pos e
    obtain ⟨f', rfl⟩ : ∃ f', f = f' + 1 := ⟨f - 1, by omega⟩
    obtain ⟨s', hs⟩ : ∃ s', sizeE e = s' + 1 := ⟨sizeE e - 1, by omega⟩
    rw [hs]
    cases e with
    | Text k v => rfl
    | Void k nm a => rfl
    | Parent k nm km a ch =>
      simp only [wfFuel]
      have hcong : ch.all (wfFuel f') = ch.all (wfFuel s') := by
        apply list_all_congr
        intro c hmem
        have hlt : sizeE c < sizeE (Element.Parent k nm km a ch) :=
          sizeE_child_lt hmem
        rw [IH f' (by omega) c (by omega), IH s' (by omega) c (by omega)]
      rw [hcong]

/-- Evaluate `Element.wf` with any sufficiently large fuel. -/
theorem wf_eval (f : Nat) {e : Element} (h : sizeE e ≤ f) :
    Element.wf e = wfFuel f e :=
  (wfFuel_irrel f e h).symm

theorem wf_parent (k : Key) (nm : String) (km : List (Key × Nat))
    (a : Option (List (String × String))) (ch : List Element) :
    Element.wf (Element.Parent k nm km a ch) =
      (keymapExactB km ch && ch.all Element.wf) := by
  have hpos := sizeE_pos (Element.Parent k nm km a ch)
  obtain ⟨s', hs⟩ : ∃ s', sizeE (Element.Parent k nm km a ch) = s' + 1 :=
    ⟨sizeE (Element.Parent k nm km a ch) - 1, by omega⟩
  show wfFuel (sizeE (Element.Parent k nm km a ch)) _ = _
  rw [hs]
  simp only [wfFuel]
  have hcong : ch.all (wfFuel s') = ch.all Element.wf := by
    apply list_all_congr
    intro c hmem
    have hlt : sizeE c < sizeE (Element.Parent k nm km a ch) :=
      sizeE_child_lt hmem
    rw [wfFuel_irrel s' c (by omega)]
    rfl
  rw [hcong]

theorem wf_parent_km {k : Key} {nm : String} {km : List (Key × Nat)}
    {a : Option (List (String × String))} {ch : List Element}
    (h : Element.wf (Element.Parent k nm km a ch) = true) :
    keymapExactB km ch = true := by
  rw [wf_parent] at h
  simp only [Bool.and_eq_true] at h
  exact h.1

theorem wf_parent_child {k : Key} {nm : String} {km : List (Key × Nat)}
    {a : Option (List (String × String))} {ch : List Element}
    (h : Element.wf (Element.Parent k nm km a ch) = true) :
    ∀ c ∈ ch, Element.wf c = true := by
  rw [wf_parent] at h
  simp only [Bool.and_eq_true] at h
  exact fun c hc => List.all_eq_true.mp h.2 c hc

theorem keymapExactB_entry {km : List (Key × Nat)} {ch : List Element}
    (h : keymapExactB km ch = true) :
    ∀ kv ∈ km, ∃ hlt : kv.2 < ch.length, (ch.get ⟨kv.2, hlt⟩).toKey = kv.1 := by
  intro kv hkv
  simp only [keymapExactB, Bool.and_eq_true] at h
  have h1 := List.all_eq_true.mp h.1 kv hkv
  cases hg : ch.get? kv.2 with
  | none => rw [hg] at h1; exact Bool.noConfusion h1
  | some c =>
    rw [hg] at h1
    obtain ⟨hlt, heq⟩ := List.get?_eq_some.mp hg
    refine ⟨hlt, ?_⟩
    rw [heq]
    exact of_decide_eq_true h1

theorem keymapExactB_bound {km : List (Key × Nat)} {ch : List Element}
    (h : keymapExactB km ch = true) :
    ∀ kv ∈ km, kv.2 < ch.length := by
  intro kv hkv
  obtain ⟨hlt, _⟩ := keymapExactB_entry h kv hkv
  exact hlt

theorem diff_total_aux : ∀ s p n, sizeE p ≤ s →
    Element.wf p = true → Element.wf n = true →
    ∃ r, Element.diff p n = Except.ok r := by
  intro s
  induction s using Nat.strong_induction_on with
  | _ s IH =>
    intro p n hle hwp hwn
    cases p with
    | Text k v =>
      cases n with
      | Text k2 v2 =>
        rw [diff_text_text]
        by_cases hv : v ≠ v2
        · exact ⟨_, by rw [if_pos hv]⟩
        · exact ⟨_, by rw [if_neg hv]⟩
      | Void k2 nm2 a2 => exact ⟨_, diff_mismatch (by simp [Element.ctorIdx])⟩
      | Parent k2 nm2 km2 a2 ch2 => exact ⟨_, diff_mismatch (by simp [Element.ctorIdx])⟩
    | Void k nm a =>
      cases n with
      | Text k2 v2 => exact ⟨_, diff_mismatch (by simp [Element.ctorIdx])⟩
      | Void k2 nm2 a2 =>
        rw [diff_void_void]
        by_cases hv : nm = nm2
        · exact ⟨_, by rw [if_pos hv]⟩
        · exact ⟨_, by rw [if_neg hv]⟩
      | Parent k2 nm2 km2 a2 ch2 => exact ⟨_, diff_mismatch (by simp [Element.ctorIdx])⟩
    | Parent k nm km a ch =>
      cases n with
      | Text k2 v2 => exact ⟨_, diff_mismatch (by simp [Element.ctorIdx])⟩
      | Void k2 nm2 a2 => exact ⟨_, diff_mismatch (by simp [Element.ctorIdx])⟩
      | Parent k2 nm2 km2 a2 ch2 =>
        rw [diff_parent_parent]
        by_cases hnm : nm = nm2
        · rw [if_pos hnm]
          have hd : ∀ lc ∈ ch, ∀ rc ∈ ch2, ∃ r, Element.diff lc rc = Except.ok r := by
            intro lc hlc rc hrc
            have hlt : sizeE lc < sizeE (Element.Parent k nm km a ch) :=
              sizeE_child_lt hlc
            exact IH (sizeE lc) (by omega) lc rc (Nat.le_refl _)
              (wf_parent_child hwp lc hlc) (wf_parent_child hwn rc hrc)
          have hbL : ∀ kv ∈ km, ∀ v2, kmLookup km2 kv.1 = some v2 →
              kv.2 < ch.length ∧ v2 < ch2.length := by
            intro kv hkv v2 hv2
            refine ⟨keymapExactB_bound (wf_parent_km hwp) kv hkv, ?_⟩
            exact keymapExactB_bound (wf_parent_km hwn) (kv.1, v2) (kmLookup_mem hv2)
          have hbR : ∀ kv ∈ km2, kmLookup km kv.1 = none → kv.2 < ch2.length := by
            intro kv hkv _
            exact keymapExactB_bound (wf_parent_km hwn) kv hkv
          obtain ⟨out1, h1⟩ := diffLeftLoop_total hd km [] [] false hbL
          obtain ⟨cs, ccs, ord⟩ := out1
          obtain ⟨out2, h2⟩ := diffRightLoop_total km2 cs ord hbR
          obtain ⟨cs2, ord2⟩ := out2
          simp only [h1, h2]
          by_cases hc : ccs.length = 0
          · exact ⟨_, by rw [if_pos hc]⟩
          · exact ⟨_, by rw [if_neg hc]⟩
        · exact ⟨_, by rw [if_neg hnm]⟩

/-- Totality of `Element.diff` over well-formed trees: the embedded panic
(`Except.error`) is unreachable. -/
theorem diff_total (p n : Element) (hwp : Element.wf p = true)
    (hwn : Element.wf n = true) : ∃ r, Element.diff p n = Except.ok r :=
  diff_total_aux (sizeE p) p n (Nat.le_refl _) hwp hwn

theorem diff_parent_spec (k1 k2 : Key) (nm : String)
    (km km2 : List (Key × Nat)) (a a2 : Option (List (String × String)))
    (ch ch2 : List Element)
    (hwp : Element.wf (Element.Parent k1 nm km a ch) = true)
    (hwn : Element.wf (Element.Parent k2 nm km2 a2 ch2) = true) :
    ∃ cs ccsOpt extra,
      Element.diff (Element.Parent k1 nm km a ch)
          (Element.Parent k2 nm km2 a2 ch2) =
        Except.ok (some (DiffTree.mk (some cs) ccsOpt)) ∧
      cs = (removedChanges km2 km ++ extra) ++
        (if (sharedMovedB km km2 || sharedMovedB km2 km) then
          [Change.SortChildren (ch2.map Element.toKey)] else []) ∧
      (∀ c ∈ extra, isInsertChild c = true) := by
  have hd : ∀ lc ∈ ch, ∀ rc ∈ ch2, ∃ r, Element.diff lc rc = Except.ok r :=
    fun lc hlc rc hrc =>
      diff_total lc rc (wf_parent_child hwp lc hlc) (wf_parent_child hwn rc hrc)
  have hbL : ∀ kv ∈ km, ∀ v2, kmLookup km2 kv.1 = some v2 →
      kv.2 < ch.length ∧ v2 < ch2.length := by
    intro kv hkv v2 hv2
    refine ⟨keymapExactB_bound (wf_parent_km hwp) kv hkv, ?_⟩
    exact keymapExactB_bound (wf_parent_km hwn) (kv.1, v2) (kmLookup_mem hv2)
  have hbR : ∀ kv ∈ km2, kmLookup km kv.1 = none → kv.2 < ch2.length := by
    intro kv hkv _
    exact keymapExactB_bound (wf_parent_km hwn) kv hkv
  obtain ⟨out1, h1⟩ := diffLeftLoop_total hd km [] [] false hbL
  obtain ⟨cs, ccs, ord⟩ := out1
  obtain ⟨out2, h2⟩ := diffRightLoop_total km2 cs ord hbR
  obtain ⟨cs2, ord2⟩ := out2
  obtain ⟨hcs1, hord1⟩ := diffLeftLoop_ok_spec km [] [] false cs ccs ord h1
  obtain ⟨⟨extra, he1, he2⟩, hord2⟩ := diffRightLoop_ok_spec km2 cs ord cs2 ord2 h2
  refine ⟨if ord2 = true then cs2 ++ [Change.SortChildren (ch2.map Element.toKey)] else cs2,
    if ccs.length = 0 then none else some ccs, extra, ?_, ?_, he2⟩
  · rw [diff_parent_parent, if_pos rfl]
    simp only [h1, h2]
    by_cases hc : ccs.length = 0
    · simp [hc]
    · simp [hc]
  · have hordfin : ord2 = (sharedMovedB km km2 || sharedMovedB km2 km) := by
      rw [hord2, hord1]
      simp
    rw [hordfin, he1, hcs1]
    by_cases hmv : (sharedMovedB km km2 || sharedMovedB km2 km) = true
    · rw [hmv]
      simp
    · rw [Bool.not_eq_true] at hmv
      rw [hmv]
      simp

theorem keyLtB_irrefl (k : Key) : keyLtB k k = false := by
  cases k <;> simp [keyLtB]

theorem kmSorted_keys_nodup {km : List (Key × Nat)} (h : kmSorted km) :
    (km.map Prod.fst).Nodup := by
  have h2 : (km.map Prod.fst).Pairwise (fun a b => a ≠ b) :=
    List.Pairwise.map Prod.fst
      (fun x y (hxy : keyLtB x.1 y.1 = true) (heq : x.1 = y.1) => by
        rw [heq, keyLtB_irrefl] at hxy
        exact Bool.noConfusion hxy) h
  exact h2

theorem kmLookup_of_mem_nodup {km : List (Key × Nat)}
    (hnd : (km.map Prod.fst).Nodup) {k : Key} {v : Nat}
    (hmem : (k, v) ∈ km) : kmLookup km k = some v := by
  induction km with
  | nil => cases hmem
  | cons kv rest ih =>
    obtain ⟨k2, v2⟩ := kv
    simp only [List.map_cons, List.nodup_cons] at hnd
    rcases List.mem_cons.mp hmem with h1 | h1
    · obtain ⟨he1, he2⟩ := Prod.mk.injEq .. ▸ h1
      subst he1; subst he2
      simp [kmLookup]
    · by_cases hk : k = k2
      · subst hk
        exact absurd (List.mem_map_of_mem Prod.fst h1) hnd.1
      · simp only [kmLookup, if_neg hk]
        exact ih hnd.2 h1

theorem sharedMovedB_iff {lkm rkm : List (Key × Nat)}
    (hnd : (lkm.map Prod.fst).Nodup) :
    sharedMovedB lkm rkm = true ↔ sharedMovedProp lkm rkm := by
  constructor
  · intro h
    obtain ⟨kv, hmem, hcond⟩ := List.any_eq_true.mp h
    cases hlk : kmLookup rkm kv.1 with
    | none => rw [hlk] at hcond; exact Bool.noConfusion hcond
    | some v2 =>
      rw [hlk] at hcond
      exact ⟨kv.1, kv.2, v2, kmLookup_of_mem_nodup hnd hmem, hlk,
        of_decide_eq_true hcond⟩
  · rintro ⟨k, v, v2, h1, h2, hne⟩
    apply List.any_eq_true.mpr
    refine ⟨(k, v), kmLookup_mem h1, ?_⟩
    simp only [h2]
    exact decide_eq_true hne

theorem moved_or_iff {lkm rkm : List (Key × Nat)}
    (h1 : kmSorted lkm) (h2 : kmSorted rkm) :
    (sharedMovedB lkm rkm || sharedMovedB rkm lkm) = true ↔
      sharedMovedProp lkm rkm := by
  rw [Bool.or_eq_true, sharedMovedB_iff (kmSorted_keys_nodup h1),
    sharedMovedB_iff (kmSorted_keys_nodup h2)]
  constructor
  · rintro (h | h)
    · exact h
    · obtain ⟨k, v, v2, ha, hb, hc⟩ := h
      exact ⟨k, v2, v, hb, ha, Ne.symm hc⟩
  · intro h
    exact Or.inl h

/-- C9: for every pair of Text Elements, if the string values differ the
diff is exactly one update-text Change carrying the next value with no
nested diffs, and if they are equal the diff is absent. -/
theorem c9_text_text (k1 k2 : Key) (l r : String) :
    (l ≠ r → Element.diff (Element.Text k1 l) (Element.Text k2 r) =
      Except.ok (some (DiffTree.mk (some [Change.UpdateText r]) none))) ∧
    (l = r → Element.diff (Element.Text k1 l) (Element.Text k2 r) =
      Except.ok none) := by
  constructor
  · intro h
    rw [diff_text_text, if_pos h]
  · intro h
    rw [diff_text_text, if_neg (by simpa using h)]

theorem c9_text_text_witness :
    Element.diff (Element.Text (Key.Local 0) "a") (Element.Text (Key.Local 1) "b") =
      Except.ok (some (DiffTree.mk (some [Change.UpdateText "b"]) none)) ∧
    Element.diff (Element.Text (Key.Local 0) "a") (Element.Text (Key.Local 1) "a") =
      Except.ok none :=
  ⟨(c9_text_text (Key.Local 0) (Key.Local 1) "a" "b").1 (by decide),
   (c9_text_text (Key.Local 0) (Key.Local 1) "a" "a").2 rfl⟩

/-- C8: for every pair of Void Elements, if the tag names differ the
diff is exactly one replace-node Change carrying the full next Element
with no nested diffs, and if they are equal the diff is absent even when
the attribute maps differ. -/
theorem c8_void_void (k1 k2 : Key) (l r : String)
    (a1 a2 : Option (List (String × String))) :
    (l ≠ r → Element.diff (Element.Void k1 l a1) (Element.Void k2 r a2) =
      Except.ok (some (DiffTree.mk
        (some [Change.ReplaceNode (Element.Void k2 r a2)]) none))) ∧
    (l = r → Element.diff (Element.Void k1 l a1) (Element.Void k2 r a2) =
      Except.ok none) := by
  constructor
  · intro h
    rw [diff_void_void, if_neg h]
  · intro h
    rw [diff_void_void, if_pos h]

theorem c8_void_void_witness :
    Element.diff (Element.Void (Key.Local 0) "a" none)
        (Element.Void (Key.Local 1) "b" none) =
      Except.ok (some (DiffTree.mk
        (some [Change.ReplaceNode (Element.Void (Key.Local 1) "b" none)]) none)) ∧
    Element.diff (Element.Void (Key.Local 0) "a" none)
        (Element.Void (Key.Local 1) "a" (some [("x", "y")])) =
      Except.ok none :=
  ⟨(c8_void_void (Key.Local 0) (Key.Local 1) "a" "b" none none).1 (by decide),
   (c8_void_void (Key.Local 0) (Key.Local 1) "a" "a" none (some [("x", "y")])).2 rfl⟩

/-- C10: for every pair of Elements of different variants, and for every
pair of Parents with different tag names, the diff is exactly one
replace-node Change carrying the full next Element, with no nested diff
entries. -/
theorem c10_mismatch (p n : Element)
    (h : p.ctorIdx ≠ n.ctorIdx ∨
      ∃ k1 k2 nm nm2 km km2 a a2 ch ch2,
        p = Element.Parent k1 nm km a ch ∧ n = Element.Parent k2 nm2 km2 a2 ch2 ∧
          nm ≠ nm2) :
    Element.diff p n =
      Except.ok (some (DiffTree.mk (some [Change.ReplaceNode n]) none)) := by
  rcases h with h | ⟨k1, k2, nm, nm2, km, km2, a, a2, ch, ch2, rfl, rfl, hne⟩
  · exact diff_mismatch h
  · rw [diff_parent_parent, if_neg hne]

theorem c10_mismatch_witness :
    Element.diff (Element.Text (Key.Local 0) "a") (Element.Void (Key.Local 1) "b" none) =
      Except.ok (some (DiffTree.mk
        (some [Change.ReplaceNode (Element.Void (Key.Local 1) "b" none)]) none)) ∧
    Element.diff (Element.Parent (Key.Local 0) "a" [] none [])
        (Element.Parent (Key.Local 1) "b" [] none []) =
      Except.ok (some (DiffTree.mk
        (some [Change.ReplaceNode (Element.Parent (Key.Local 1) "b" [] none [])]) none)) :=
  ⟨c10_mismatch _ _ (Or.inl (by decide)),
   c10_mismatch _ _ (Or.inr ⟨_, _, _, _, _, _, _, _, _, _, rfl, rfl, by decide⟩)⟩

/-- C1 (code bug): the self-diff of a Parent is not absent.  The
Parent/Parent arm of `Element::diff` unconditionally wraps its (possibly
empty) change list in `Some(DiffTree { changes: Some(..), .. })`, so
`diff(T, T)` on any Parent `T` returns an empty `DiffTree` instead of
`None`, and an empty `DiffTree` is constructed. -/
theorem c1_parent_self_diff_not_absent :
    Element.diff (Element.Parent (Key.Local 0) "div" [] none [])
        (Element.Parent (Key.Local 0) "div" [] none []) =
      Except.ok (some (DiffTree.mk (some []) none)) ∧
    (Except.ok (some (DiffTree.mk (some []) none)) :
        Except Unit (Option DiffTree)) ≠ Except.ok none := by
  constructor
  · rw [diff_eval 4 (by simp only [sizeE, sizeL]; omega)]
    rfl
  · intro h
    injection h with h2
    exact Option.noConfusion h2

/-- C2 (code bug): when keyed reconciliation yields a nested child diff
but no local changes, the code stores `Some([])` (an empty container)
for the local-change side instead of an absent value.  On the input of
the repository's own `test_nested_remove` test the code produces
`changes: Some([])` where the test (and the spec) expect `changes:
None`, so that test fails against this code. -/
theorem c2_empty_changes_not_absent :
    Element.diff prevNested nextNested =
      Except.ok (some (DiffTree.mk (some [])
        (some [(Key.Local 0, DiffTree.mk
          (some [Change.ReplaceNode (Element.Void (Key.Local 0) "div" none)])
          none)]))) ∧
    (some ([] : List Change) ≠ (none : Option (List Change))) := by
  constructor
  · rw [diff_eval 16 (by simp only [prevNested, sizeE, sizeL]; omega)]
    rfl
  · intro h
    exact Option.noConfusion h

/-- C4 (code bug): appending one new child to a Parent `P` that itself
contains a Parent child does not give a diff with "no nested diffs": the
unchanged Parent child's self-diff is a non-absent empty `DiffTree`
(claim C1's bug), so the result carries a nested-diff entry for it in
addition to the single insert-child Change. -/
theorem c4_append_child_nested_diff :
    Element.diff pBase pAppended =
      Except.ok (some (DiffTree.mk
        (some [Change.InsertChild (Element.Void (Key.Local 2) "img" none)])
        (some [(Key.Local 1, DiffTree.mk (some []) none)]))) ∧
    (some [(Key.Local 1, DiffTree.mk (some []) none)] ≠
      (none : Option (List (Key × DiffTree)))) := by
  constructor
  · rw [diff_eval 16 (by simp only [pBase, sizeE, sizeL]; omega)]
    rfl
  · intro h
    exact Option.noConfusion h

/-- C6: `diff(previous, next)` is total over well-formed trees (every
Parent's keymap maps each direct child's key to its index and nothing
else): it never reaches the out-of-bounds panic modelled by
`Except.error`. -/
theorem c6_diff_total (p n : Element) (hwp : Element.wf p = true)
    (hwn : Element.wf n = true) :
    ∃ r, Element.diff p n = Except.ok r :=
  diff_total p n hwp hwn

theorem c6_diff_total_witness :
    Element.wf wfTreeA = true ∧ Element.wf wfTreeB = true ∧
      ∃ r, Element.diff wfTreeA wfTreeB = Except.ok r := by
  have hwA : Element.wf wfTreeA = true := by
    rw [wf_eval 16 (by simp only [wfTreeA, sizeE, sizeL]; omega)]
    rfl
  have hwB : Element.wf wfTreeB = true := by
    rw [wf_eval 16 (by simp only [wfTreeB, sizeE, sizeL]; omega)]
    rfl
  exact ⟨hwA, hwB, c6_diff_total wfTreeA wfTreeB hwA hwB⟩

theorem isInsertChild_not_remove {c : Change} (h : isInsertChild c = true) :
    isRemoveChild c = false := by
  cases c <;> simp_all [isInsertChild, isRemoveChild]

theorem isInsertChild_not_sort {c : Change} (h : isInsertChild c = true) :
    isSortChildren c = false := by
  cases c <;> simp_all [isInsertChild, isSortChildren]

theorem mem_removedChanges {other km : List (Key × Nat)} {c : Change}
    (h : c ∈ removedChanges other km) : ∃ k, c = Change.RemoveChild k := by
  obtain ⟨k, _, hk⟩ := List.mem_map.mp h
  exact ⟨k, hk.symm⟩

/-- C3 counterexample: diffing `prevOrd` against `nextOrd` removes keys
3 and 2, which appeared among the previous children in the order
`[3, 2]`; the code emits the remove-child changes in keymap (ascending
key) order `[2, 3]`, not in the order the removed keys originally
appeared. -/
theorem c3_counterexample :
    removeKeysOf (changesOf (Element.diff prevOrd nextOrd)) =
        [Key.Local 2, Key.Local 3] ∧
      specRemovalOrder prevOrd nextOrd = [Key.Local 3, Key.Local 2] ∧
      removeKeysOf (changesOf (Element.diff prevOrd nextOrd)) ≠
        specRemovalOrder prevOrd nextOrd := by
  have h : Element.diff prevOrd nextOrd =
      Except.ok (some (DiffTree.mk
        (some [Change.RemoveChild (Key.Local 2), Change.RemoveChild (Key.Local 3),
          Change.SortChildren [Key.Local 1]]) none)) := by
    rw [diff_eval 16 (by simp only [prevOrd, sizeE, sizeL]; omega)]
    rfl
  refine ⟨by rw [h]; rfl, rfl, by rw [h]; decide⟩

/-- C3 (amended): for Parents with equal tag names, each key present in
the previous keymap but absent from the next yields exactly one
remove-child Change, and these remove-child Changes appear in the change
list in ascending key order (the keymap's iteration order), not in the
order the removed keys appeared among the previous children. -/
theorem c3_removals_amended (k1 k2 : Key) (nm : String)
    (km km2 : List (Key × Nat)) (a a2 : Option (List (String × String)))
    (ch ch2 : List Element)
    (hwp : Element.wf (Element.Parent k1 nm km a ch) = true)
    (hwn : Element.wf (Element.Parent k2 nm km2 a2 ch2) = true)
    (hs : kmSorted km) :
    ∃ cs ccsOpt,
      Element.diff (Element.Parent k1 nm km a ch)
          (Element.Parent k2 nm km2 a2 ch2) =
        Except.ok (some (DiffTree.mk (some cs) ccsOpt)) ∧
      cs.filter isRemoveChild =
        (removedKeys km2 km).map (fun k => Change.RemoveChild k) ∧
      List.Pairwise (fun x y => keyLtB x y = true) (removedKeys km2 km) ∧
      (removedKeys km2 km).Nodup := by
  obtain ⟨cs, ccsOpt, extra, hdiff, hcs, hins⟩ :=
    diff_parent_spec k1 k2 nm km km2 a a2 ch ch2 hwp hwn
  refine ⟨cs, ccsOpt, hdiff, ?_, ?_, ?_⟩
  · rw [hcs]
    rw [List.filter_append, List.filter_append]
    have h1 : (removedChanges km2 km).filter isRemoveChild = removedChanges km2 km := by
      apply List.filter_eq_self.mpr
      intro c hc
      obtain ⟨k, hk⟩ := mem_removedChanges hc
      rw [hk]
      rfl
    have h2 : extra.filter isRemoveChild = [] := by
      apply List.filter_eq_nil_iff.mpr
      intro c hc
      rw [isInsertChild_not_remove (hins c hc)]
      exact Bool.noConfusion
    have h3 : (if (sharedMovedB km km2 || sharedMovedB km2 km) then
        [Change.SortChildren (ch2.map Element.toKey)] else []).filter isRemoveChild = [] := by
      by_cases hb : (sharedMovedB km km2 || sharedMovedB km2 km) = true
      · rw [if_pos hb]
        rfl
      · rw [if_neg hb]
        rfl
    rw [h1, h2, h3]
    simp [removedChanges]
  · have hpair : List.Pairwise (fun x y : Key × Nat => keyLtB x.1 y.1 = true)
        (km.filter (fun kv => (kmLookup km2 kv.1).isNone)) :=
      List.Pairwise.sublist (List.filter_sublist km) hs
    exact List.Pairwise.map Prod.fst (fun x y hxy => hxy) hpair
  · have hsub0 : (km.filter (fun kv => (kmLookup km2 kv.1).isNone)).Sublist km :=
      List.filter_sublist km
    have hsub : (removedKeys km2 km).Sublist (km.map Prod.fst) :=
      List.Sublist.map Prod.fst hsub0
    exact List.Nodup.sublist hsub (kmSorted_keys_nodup hs)

theorem c3_removals_amended_witness :
    ∃ cs ccsOpt,
      Element.diff (Element.Parent (Key.Local 0) "div"
          [(Key.Local 1, 2), (Key.Local 2, 1), (Key.Local 3, 0)] none
          [Element.Void (Key.Local 3) "div" none,
           Element.Void (Key.Local 2) "div" none,
           Element.Void (Key.Local 1) "div" none])
          (Element.Parent (Key.Local 0) "div" [(Key.Local 1, 0)] none
            [Element.Void (Key.Local 1) "div" none]) =
        Except.ok (some (DiffTree.mk (some cs) ccsOpt)) ∧
      cs.filter isRemoveChild =
        (removedKeys [(Key.Local 1, 0)]
            [(Key.Local 1, 2), (Key.Local 2, 1), (Key.Local 3, 0)]).map
          (fun k => Change.RemoveChild k) ∧
      List.Pairwise (fun x y => keyLtB x y = true)
        (removedKeys [(Key.Local 1, 0)]
          [(Key.Local 1, 2), (Key.Local 2, 1), (Key.Local 3, 0)]) ∧
      (removedKeys [(Key.Local 1, 0)]
        [(Key.Local 1, 2), (Key.Local 2, 1), (Key.Local 3, 0)]).Nodup := by
  apply c3_removals_amended
  · rw [wf_eval 16 (by simp only [sizeE, sizeL]; omega)]
    rfl
  · rw [wf_eval 16 (by simp only [sizeE, sizeL]; omega)]
    rfl
  · simp only [kmSorted]
    decide

/-- C5: for Parents with equal tag names (well-formed, with sorted
keymaps): if some shared key has different indices in the two keymaps,
the change list ends with exactly one sort-children Change carrying the
keys of all of next's children in sequence order (and contains no other
sort-children Change); if no shared key changed index, no sort-children
Change is emitted.  In particular diffing children `[1,2]` against
`[2,1]` yields exactly one sort-children Change carrying `[2,1]` and no
insert-child or remove-child Changes. -/
theorem c5_sort_children :
    (∀ (k1 k2 : Key) (nm : String) (km km2 : List (Key × Nat))
      (a a2 : Option (List (String × String))) (ch ch2 : List Element),
      Element.wf (Element.Parent k1 nm km a ch) = true →
      Element.wf (Element.Parent k2 nm km2 a2 ch2) = true →
      kmSorted km → kmSorted km2 →
      ∃ cs ccsOpt,
        Element.diff (Element.Parent k1 nm km a ch)
            (Element.Parent k2 nm km2 a2 ch2) =
          Except.ok (some (DiffTree.mk (some cs) ccsOpt)) ∧
        (sharedMovedProp km km2 →
          ∃ pre, cs = pre ++ [Change.SortChildren (ch2.map Element.toKey)] ∧
            ∀ c ∈ pre, isSortChildren c = false) ∧
        (¬ sharedMovedProp km km2 → ∀ c ∈ cs, isSortChildren c = false)) ∧
    Element.diff swapPrev swapNext =
      Except.ok (some (DiffTree.mk
        (some [Change.SortChildren [Key.Local 2, Key.Local 1]]) none)) := by
  constructor
  · intro k1 k2 nm km km2 a a2 ch ch2 hwp hwn hs1 hs2
    obtain ⟨cs, ccsOpt, extra, hdiff, hcs, hins⟩ :=
      diff_parent_spec k1 k2 nm km km2 a a2 ch ch2 hwp hwn
    refine ⟨cs, ccsOpt, hdiff, ?_, ?_⟩
    · intro hmv
      have hb : (sharedMovedB km km2 || sharedMovedB km2 km) = true :=
        (moved_or_iff hs1 hs2).mpr hmv
      rw [hb] at hcs
      refine ⟨removedChanges km2 km ++ extra, by rw [hcs]; simp, ?_⟩
      intro c hc
      rcases List.mem_append.mp hc with h1 | h1
      · obtain ⟨k, hk⟩ := mem_removedChanges h1
        rw [hk]
        rfl
      · exact isInsertChild_not_sort (hins c h1)
    · intro hmv
      have hb : (sharedMovedB km km2 || sharedMovedB km2 km) = false := by
        cases hb2 : (sharedMovedB km km2 || sharedMovedB km2 km) with
        | false => rfl
        | true => exact absurd ((moved_or_iff hs1 hs2).mp hb2) hmv
      rw [hb] at hcs
      simp only [if_neg Bool.false_ne_true, List.append_nil] at hcs
      intro c hc
      rw [hcs] at hc
      rcases List.mem_append.mp hc with h1 | h1
      · obtain ⟨k, hk⟩ := mem_removedChanges h1
        rw [hk]
        rfl
      · exact isInsertChild_not_sort (hins c h1)
  · rw [diff_eval 16 (by simp only [swapPrev, sizeE, sizeL]; omega)]
    rfl

theorem c5_sort_children_witness :
    (∃ cs ccsOpt,
      Element.diff swapPrev swapNext =
        Except.ok (some (DiffTree.mk (some cs) ccsOpt)) ∧
      (sharedMovedProp [(Key.Local 1, 0), (Key.Local 2, 1)]
          [(Key.Local 1, 1), (Key.Local 2, 0)] →
        ∃ pre, cs = pre ++
            [Change.SortChildren
              ([Element.Void (Key.Local 2) "div" none,
                Element.Void (Key.Local 1) "div" none].map Element.toKey)] ∧
          ∀ c ∈ pre, isSortChildren c = false) ∧
      (¬ sharedMovedProp [(Key.Local 1, 0), (Key.Local 2, 1)]
          [(Key.Local 1, 1), (Key.Local 2, 0)] →
        ∀ c ∈ cs, isSortChildren c = false)) ∧
    sharedMovedProp [(Key.Local 1, 0), (Key.Local 2, 1)]
      [(Key.Local 1, 1), (Key.Local 2, 0)] := by
  constructor
  · apply c5_sort_children.1
    · rw [wf_eval 16 (by simp only [sizeE, sizeL]; omega)]
      rfl
    · rw [wf_eval 16 (by simp only [sizeE, sizeL]; omega)]
      rfl
    · simp only [kmSorted]
      decide
    · simp only [kmSorted]
      decide
  · exact ⟨Key.Local 1, 0, 1, rfl, rfl, by decide⟩

theorem kmInsert_lookup (k : Key) (v : Nat) :
    ∀ (m : List (Key × Nat)) (k2 : Key),
      kmLookup (kmInsert k v m) k2 = if k2 = k then some v else kmLookup m k2 := by
  intro m
  induction m with
  | nil => intro k2; simp [kmInsert, kmLookup]
  | cons kv rest ih =>
    intro k2
    obtain ⟨k3, v3⟩ := kv
    simp only [kmInsert]
    by_cases h1 : keyLtB k k3 = true
    · rw [if_pos h1]
      simp [kmLookup]
    · rw [if_neg h1]
      by_cases h2 : k = k3
      · subst h2
        rw [if_pos rfl]
        simp only [kmLookup]
        by_cases h3 : k2 = k
        · rw [if_pos h3, if_pos h3]
        · rw [if_neg h3, if_neg h3, if_neg h3]
      · rw [if_neg h2]
        simp only [kmLookup, ih]
        by_cases h3 : k2 = k3
        · have hne : ¬ k2 = k := fun he => h2 (he.symm.trans h3)
          rw [if_pos h3, if_neg hne, if_pos h3]
        · rw [if_neg h3]
          by_cases h4 : k2 = k
          · rw [if_pos h4, if_pos h4]
          · rw [if_neg h4, if_neg h4, if_neg h3]

theorem mem_kmInsert {k : Key} {v : Nat} :
    ∀ {m : List (Key × Nat)} {kv : Key × Nat},
      kv ∈ kmInsert k v m → kv = (k, v) ∨ kv ∈ m := by
  intro m
  induction m with
  | nil =>
    intro kv h
    simp [kmInsert] at h
    exact Or.inl h
  | cons kv2 rest ih =>
    intro kv h
    obtain ⟨k3, v3⟩ := kv2
    simp only [kmInsert] at h
    by_cases h1 : keyLtB k k3 = true
    · rw [if_pos h1] at h
      rcases List.mem_cons.mp h with h2 | h2
      · exact Or.inl h2
      · exact Or.inr h2
    · rw [if_neg h1] at h
      by_cases h2 : k = k3
      · rw [if_pos h2] at h
        rcases List.mem_cons.mp h with h3 | h3
        · exact Or.inl h3
        · exact Or.inr (List.mem_cons_of_mem _ h3)
      · rw [if_neg h2] at h
        rcases List.mem_cons.mp h with h3 | h3
        · exact Or.inr (h3 ▸ List.mem_cons_self _ _)
        · rcases ih h3 with h4 | h4
          · exact Or.inl h4
          · exact Or.inr (List.mem_cons_of_mem _ h4)

theorem lookupRev_mem : ∀ {l : List (Nat × Element)} {k : Key} {v : Nat},
    lookupRev l k = some v → ∃ c, (v, c) ∈ l ∧ c.toKey = k := by
  intro l
  induction l with
  | nil => intro k v h; exact Option.noConfusion h
  | cons iv rest ih =>
    intro k v h
    obtain ⟨i, c⟩ := iv
    simp only [lookupRev] at h
    cases hrev : lookupRev rest k with
    | some w =>
      rw [hrev] at h
      obtain ⟨d, hd1, hd2⟩ := ih hrev
      injection h with h2
      subst h2
      exact ⟨d, List.mem_cons_of_mem _ hd1, hd2⟩
    | none =>
      rw [hrev] at h
      by_cases hk : k = c.toKey
      · rw [if_pos hk] at h
        injection h with h2
        subst h2
        exact ⟨c, List.mem_cons_self _ _, hk.symm⟩
      · rw [if_neg hk] at h
        exact Option.noConfusion h

theorem lookupRev_eq_some : ∀ {l : List (Nat × Element)} {i : Nat} {c : Element},
    (i, c) ∈ l →
    (∀ j d, (j, d) ∈ l → d.toKey = c.toKey → j = i) →
    lookupRev l c.toKey = some i := by
  intro l
  induction l with
  | nil => intro i c h _; cases h
  | cons iv rest ih =>
    intro i c hmem huniq
    obtain ⟨j, d⟩ := iv
    simp only [lookupRev]
    rcases List.mem_cons.mp hmem with h1 | h1
    · obtain ⟨he1, he2⟩ := Prod.mk.injEq .. ▸ h1
      cases hrev : lookupRev rest c.toKey with
      | some w =>
        obtain ⟨d2, hd1, hd2⟩ := lookupRev_mem hrev
        rw [huniq w d2 (List.mem_cons_of_mem _ hd1) hd2]
      | none =>
        rw [if_pos (by rw [he2])]
        rw [he1]
    · have hrev : lookupRev rest c.toKey = some i :=
        ih h1 (fun j2 d2 hm he => huniq j2 d2 (List.mem_cons_of_mem _ hm) he)
      rw [hrev]

theorem foldl_kmInsert_lookup :
    ∀ (l : List (Nat × Element)) (m0 : List (Key × Nat)) (k : Key),
      kmLookup (l.foldl (fun m iv => kmInsert iv.2.toKey iv.1 m) m0) k =
        match lookupRev l k with
        | some v => some v
        | none => kmLookup m0 k := by
  intro l
  induction l with
  | nil => intro m0 k; rfl
  | cons iv rest ih =>
    intro m0 k
    obtain ⟨i, c⟩ := iv
    simp only [List.foldl_cons, lookupRev]
    rw [ih]
    cases hrev : lookupRev rest k with
    | some w => rfl
    | none =>
      rw [kmInsert_lookup]
      by_cases hk : k = c.toKey
      · rw [if_pos hk, if_pos hk]
      · rw [if_neg hk, if_neg hk]

theorem foldl_kmInsert_mem (P : Key × Nat → Prop) :
    ∀ (l : List (Nat × Element)) (m0 : List (Key × Nat)),
      (∀ kv ∈ m0, P kv) → (∀ iv ∈ l, P (iv.2.toKey, iv.1)) →
      ∀ kv ∈ l.foldl (fun m iv => kmInsert iv.2.toKey iv.1 m) m0, P kv := by
  intro l
  induction l with
  | nil => intro m0 h0 _ kv hkv; exact h0 kv hkv
  | cons iv rest ih =>
    intro m0 h0 hl kv hkv
    simp only [List.foldl_cons] at hkv
    refine ih (kmInsert iv.2.toKey iv.1 m0) ?_
      (fun iv2 h2 => hl iv2 (List.mem_cons_of_mem _ h2)) kv hkv
    intro kv2 hkv2
    rcases mem_kmInsert hkv2 with h2 | h2
    · rw [h2]
      exact hl iv (List.mem_cons_self _ _)
    · exact h0 kv2 h2

theorem nodup_toKey_index_inj {ch : List Element}
    (hnd : (ch.map Element.toKey).Nodup) {i j : Nat} {c d : Element}
    (hi : ch.get? i = some c) (hj : ch.get? j = some d)
    (hk : d.toKey = c.toKey) : j = i := by
  obtain ⟨hilt, hie⟩ := List.get?_eq_some.mp hi
  obtain ⟨hjlt, hje⟩ := List.get?_eq_some.mp hj
  have hmi : i < (ch.map Element.toKey).length := by
    rw [List.length_map]; exact hilt
  have hmj : j < (ch.map Element.toKey).length := by
    rw [List.length_map]; exact hjlt
  have hgi : (ch.map Element.toKey).get ⟨i, hmi⟩ = c.toKey := by
    rw [List.get_map]
    exact congrArg Element.toKey hie
  have hgj : (ch.map Element.toKey).get ⟨j, hmj⟩ = d.toKey := by
    rw [List.get_map]
    exact congrArg Element.toKey hje
  have heq : (ch.map Element.toKey).get ⟨j, hmj⟩ = (ch.map Element.toKey).get ⟨i, hmi⟩ := by
    rw [hgi, hgj, hk]
  have := (List.Nodup.get_inj_iff hnd).mp heq
  exact Fin.mk.injEq .. ▸ this

theorem rebuildKeymap_exact {ch : List Element}
    (hnd : (ch.map Element.toKey).Nodup) :
    keymapExactB (rebuildKeymap ch) ch = true := by
  simp only [keymapExactB, Bool.and_eq_true]
  constructor
  · apply List.all_eq_true.mpr
    intro kv hkv
    have hP := foldl_kmInsert_mem
      (fun kv => ∃ c, ch.get? kv.2 = some c ∧ c.toKey = kv.1)
      ch.enum [] (fun kv h => absurd h (List.not_mem_nil kv))
      (fun iv hiv => ⟨iv.2, by
        rw [List.get?_eq_getElem?]
        exact List.mk_mem_enum_iff_getElem?.mp (by
          obtain ⟨i2, c2⟩ := iv
          exact hiv), rfl⟩)
      kv hkv
    obtain ⟨c, hc1, hc2⟩ := hP
    rw [hc1]
    exact decide_eq_true hc2
  · apply List.all_eq_true.mpr
    intro i hi
    cases hg : ch.get? i with
    | none => rfl
    | some c =>
      apply decide_eq_true
      show kmLookup (rebuildKeymap ch) c.toKey = some i
      rw [rebuildKeymap, foldl_kmInsert_lookup]
      have hmem : (i, c) ∈ ch.enum := by
        apply List.mk_mem_enum_iff_getElem?.mpr
        rw [← List.get?_eq_getElem?]
        exact hg
      have hrev : lookupRev ch.enum c.toKey = some i := by
        apply lookupRev_eq_some hmem
        intro j d hjd hk
        have hj : ch.get? j = some d := by
          rw [List.get?_eq_getElem?]
          exact List.mk_mem_enum_iff_getElem?.mp hjd
        exact nodup_toKey_index_inj hnd hg hj hk
      rw [hrev]

/-- C7 (Mutator modelled from the spec): after any successful Mutator
operation, provided the caller's key-uniqueness invariant holds for the
resulting children, the resulting node is keymap-consistent: every child
at position `i` has its key looked up to `i` and the keymap holds no
entries for keys not present as children. -/
theorem c7_mutator_keymap_consistency :
    (∀ p el out, Element.append_child p el = Except.ok out →
      childKeysNodup out.2 → keymapConsistent out.2) ∧
    (∀ p i el out, Element.insert_before p i el = Except.ok out →
      childKeysNodup out.2 → keymapConsistent out.2) ∧
    (∀ p i els out, Element.insert_all p i els = Except.ok out →
      childKeysNodup out.2 → keymapConsistent out.2) ∧
    (∀ p els out, Element.append_all p els = Except.ok out →
      childKeysNodup out.2 → keymapConsistent out.2) ∧
    (∀ p i el out, Element.replace_child p i el = Except.ok out →
      childKeysNodup out.2 → keymapConsistent out.2) ∧
    (∀ p i out, Element.remove_child p i = Except.ok out →
      childKeysNodup out.2 → keymapConsistent out.2) ∧
    (∀ p f out, Element.reorder_children p f = Except.ok out →
      childKeysNodup out.2 → keymapConsistent out.2) ∧
    (∀ p s out, Element.update_text p s = Except.ok out →
      childKeysNodup out.2 → keymapConsistent out.2) := by
  refine ⟨?_, ?_, ?_, ?_, ?_, ?_, ?_, ?_⟩
  · intro p el out h hnd
    cases p with
    | Text k v => exact Except.noConfusion h
    | Void k nm a => exact Except.noConfusion h
    | Parent k nm km a ch =>
      simp only [Element.append_child] at h
      injection h with h2
      subst h2
      exact rebuildKeymap_exact hnd
  · intro p i el out h hnd
    cases p with
    | Text k v => exact Except.noConfusion h
    | Void k nm a => exact Except.noConfusion h
    | Parent k nm km a ch =>
      cases hg : ch.get? i with
      | none =>
        simp only [Element.insert_before, hg] at h
        exact Except.noConfusion h
      | some prev =>
        simp only [Element.insert_before, hg] at h
        injection h with h2
        subst h2
        exact rebuildKeymap_exact hnd
  · intro p i els out h hnd
    cases p with
    | Text k v => exact Except.noConfusion h
    | Void k nm a => exact Except.noConfusion h
    | Parent k nm km a ch =>
      cases hg : ch.get? i with
      | none =>
        simp only [Element.insert_all, hg] at h
        exact Except.noConfusion h
      | some prev =>
        simp only [Element.insert_all, hg] at h
        injection h with h2
        subst h2
        exact rebuildKeymap_exact hnd
  · intro p els out h hnd
    cases p with
    | Text k v => exact Except.noConfusion h
    | Void k nm a => exact Except.noConfusion h
    | Parent k nm km a ch =>
      simp only [Element.append_all] at h
      injection h with h2
      subst h2
      exact rebuildKeymap_exact hnd
  · intro p i el out h hnd
    cases p with
    | Text k v => exact Except.noConfusion h
    | Void k nm a => exact Except.noConfusion h
    | Parent k nm km a ch =>
      cases hg : ch.get? i with
      | none =>
        simp only [Element.replace_child, hg] at h
        exact Except.noConfusion h
      | some old =>
        simp only [Element.replace_child, hg] at h
        injection h with h2
        subst h2
        exact rebuildKeymap_exact hnd
  · intro p i out h hnd
    cases p with
    | Text k v => exact Except.noConfusion h
    | Void k nm a => exact Except.noConfusion h
    | Parent k nm km a ch =>
      cases hg : ch.get? i with
      | none =>
        simp only [Element.remove_child, hg] at h
        exact Except.noConfusion h
      | some old =>
        simp only [Element.remove_child, hg] at h
        injection h with h2
        subst h2
        exact rebuildKeymap_exact hnd
  · intro p f out h hnd
    cases p with
    | Text k v => exact Except.noConfusion h
    | Void k nm a => exact Except.noConfusion h
    | Parent k nm km a ch =>
      simp only [Element.reorder_children] at h
      injection h with h2
      subst h2
      exact rebuildKeymap_exact hnd
  · intro p s out h hnd
    cases p with
    | Text k v =>
      simp only [Element.update_text] at h
      injection h with h2
      subst h2
      trivial
    | Void k nm a => exact Except.noConfusion h
    | Parent k nm km a ch => exact Except.noConfusion h

theorem c7_mutator_keymap_consistency_witness :
    (∃ out, Element.append_child
        (Element.Parent (Key.Local 0) "div" [(Key.Local 1, 0)] none
          [Element.Void (Key.Local 1) "a" none])
        (Element.Void (Key.Local 2) "b" none) = Except.ok out ∧
      keymapConsistent out.2) ∧
    (∃ out, Element.remove_child
        (Element.Parent (Key.Local 0) "div" [(Key.Local 1, 0)] none
          [Element.Void (Key.Local 1) "a" none]) 0 = Except.ok out ∧
      keymapConsistent out.2) ∧
    (∃ out, Element.reorder_children
        (Element.Parent (Key.Local 0) "div" [(Key.Local 1, 0)] none
          [Element.Void (Key.Local 1) "a" none]) (fun _ => 0) = Except.ok out ∧
      keymapConsistent out.2) ∧
    (∃ out, Element.update_text (Element.Text (Key.Local 0) "x") "y" =
        Except.ok out ∧ keymapConsistent out.2) := by
  refine ⟨⟨_, rfl, ?_⟩, ⟨_, rfl, ?_⟩, ?_, ⟨_, rfl, ?_⟩⟩
  · exact c7_mutator_keymap_consistency.1
      (Element.Parent (Key.Local 0) "div" [(Key.Local 1, 0)] none
        [Element.Void (Key.Local 1) "a" none])
      (Element.Void (Key.Local 2) "b" none) _ rfl
      (by simp only [childKeysNodup]; decide)
  · exact c7_mutator_keymap_consistency.2.2.2.2.2.1
      (Element.Parent (Key.Local 0) "div" [(Key.Local 1, 0)] none
        [Element.Void (Key.Local 1) "a" none]) 0 _ rfl
      (by simp only [childKeysNodup]; decide)
  · have hre : Element.reorder_children
        (Element.Parent (Key.Local 0) "div" [(Key.Local 1, 0)] none
          [Element.Void (Key.Local 1) "a" none]) (fun _ => 0) =
        Except.ok (MutChange.SortChildren [Key.Local 1],
          Element.Parent (Key.Local 0) "div"
            (rebuildKeymap [Element.Void (Key.Local 1) "a" none]) none
            [Element.Void (Key.Local 1) "a" none]) := by
      simp only [Element.reorder_children, List.mergeSort_singleton]
      rfl
    refine ⟨_, hre, ?_⟩
    exact c7_mutator_keymap_consistency.2.2.2.2.2.2.1 _ _ _ hre
      (by simp only [childKeysNodup]; decide)
  · exact c7_mutator_keymap_consistency.2.2.2.2.2.2.2
      (Element.Text (Key.Local 0) "x") "y" _ rfl trivial
